import Mathlib

/-!
Verification of the acceptance-criteria extraction core of the
jira-github-integration repository (file `src/jira/jira-service.ts`,
class `JiraService`).

The embedding models JavaScript strings as `List Char` / `String`
(all inputs of interest are ASCII, so UTF-16 length and code-unit
subtleties do not arise), and models each regular expression of the
source either by a small backtracking engine (`RE`) that mirrors the
regex literally, or by a direct deterministic translation whose
derivation from the regex is documented at the definition site.

JavaScript semantics notes used throughout:
* `String.prototype.match` with a `g`-flagged regex returns the array
  of FULL match strings (no capture groups), or `null` if no match.
* `''` is falsy, `[]` (an array) is truthy, `0` is falsy.
* `\s` is modelled as {space, tab, newline, carriage return} and `.`
  as any char except `\n`/`\r`; the extra Unicode members of the JS
  classes are irrelevant for ASCII text.
* A thrown `TypeError` (reading a property of `undefined`) is
  modelled as `Except.error "TypeError"`.
-/

/-- JS `\s` character class (ASCII fragment): space, tab, `\n`, `\r`. -/
def isWs (c : Char) : Bool :=
  c.toNat = 32 || c.toNat = 9 || c.toNat = 10 || c.toNat = 13

/-- JS `\d` character class: `[0-9]`. -/
def isDigitC (c : Char) : Bool :=
  48 ≤ c.toNat && c.toNat ≤ 57

/-- JS `.` (no `s` flag): any character except a line terminator. -/
def jsDot (c : Char) : Bool :=
  !(c.toNat = 10 || c.toNat = 13)

/-- ASCII lower-casing key, used to model the regex `i` flag. -/
def lowerN (c : Char) : Nat :=
  if 65 ≤ c.toNat ∧ c.toNat ≤ 90 then c.toNat + 32 else c.toNat

/-- Case-insensitive character comparison (ASCII), as the `i` flag does. -/
def ciEq (a b : Char) : Bool :=
  lowerN a == lowerN b

/-- Trim of a character list: drop leading and trailing `isWs` characters,
mirroring JS `String.prototype.trim` on ASCII text. -/
def trimChars (l : List Char) : List Char :=
  (((l.dropWhile isWs).reverse).dropWhile isWs).reverse

/-- JS `s.trim()`. -/
def jsTrim (s : String) : String :=
  String.mk (trimChars s.data)

/-- Case-insensitive prefix test. -/
def isPrefixCI : List Char → List Char → Bool
  | [], _ => true
  | _ :: _, [] => false
  | p :: ps, c :: cs => ciEq p c && isPrefixCI ps cs

/-- Case-insensitive prefix strip: `some rest` iff `pat` is a prefix (ci). -/
def stripPrefixCI : List Char → List Char → Option (List Char)
  | [], l => some l
  | _ :: _, [] => none
  | p :: ps, c :: cs => if ciEq p c then stripPrefixCI ps cs else none

/-- Exact prefix strip. -/
def stripPrefixE : List Char → List Char → Option (List Char)
  | [], l => some l
  | _ :: _, [] => none
  | p :: ps, c :: cs => if p = c then stripPrefixE ps cs else none

/-- Case-insensitive substring search for `pat` anywhere in the list
(scan of every suffix), modelling an unanchored literal regex with `i`. -/
def containsCIAux (pat : List Char) : List Char → Bool
  | [] => isPrefixCI pat []
  | c :: rest => isPrefixCI pat (c :: rest) || containsCIAux pat rest

/-- `containsCI l pat`: `pat` occurs (case-insensitively) in `l`. -/
def containsCI (l pat : List Char) : Bool :=
  containsCIAux pat l

/-- Search inside one `.`-run for `When` followed (later) by `Then`,
case-insensitively: models the `When.*Then` tail of the marker regex. -/
def whenThenIn : List Char → Bool
  | [] => false
  | c :: rest =>
      (isPrefixCI ['w','h','e','n'] (c :: rest) &&
        containsCIAux ['t','h','e','n'] ((c :: rest).drop 4)) ||
      whenThenIn rest

/-- Search for `Given.*When.*Then` (case-insensitive, `.` not crossing a
line terminator): at some position `Given` occurs, and within the maximal
`.`-run that follows, `When` occurs and later `Then`.  Since every
character of `when`/`then` is itself a `.`-character, any regex match
lies entirely inside such a run, so this scan is equivalent to the regex
`/Given.*When.*Then/i`. -/
def gwtLineTest : List Char → Bool
  | [] => false
  | c :: rest =>
      (isPrefixCI ['g','i','v','e','n'] (c :: rest) &&
        whenThenIn (((c :: rest).drop 5).takeWhile jsDot)) ||
      gwtLineTest rest

/-- The marker scan of `getAcceptanceCriteria` (source line 134):
`description.match(/(?:AC|Acceptance Criteria?|Given.*When.*Then)/gi)`
is non-null iff one of the three alternatives occurs somewhere:
the substring `AC`, the substring `Acceptance Criteri` (the final `a?`
is optional, hence dropped from the necessary-and-sufficient literal),
or a same-line `Given.*When.*Then` sequence. -/
def markerTest (l : List Char) : Bool :=
  containsCI l ['a','c'] ||
  containsCI l "acceptance criteri".data ||
  gwtLineTest l

/-- The test `/^\s*GIVEN/i.test(paragraph)` (source line 168): after the
maximal leading whitespace run, the next characters are `GIVEN`
(case-insensitively).  The backtracking `\s*` is equivalent to the
maximal run here because no whitespace character compares ci-equal
to `G`. -/
def startsGivenCI (l : List Char) : Bool :=
  isPrefixCI ['g','i','v','e','n'] (l.dropWhile isWs)

/-- One-pass splitter for `text.split(/\n\s*\n/)` (source line 164).
A separator match starts at a `\n` that is followed, within the maximal
whitespace run after it, by at least one more `\n`; the greedy `\s*`
with the final mandatory `\n` makes the match extend exactly to the
LAST `\n` of that whitespace run.  The scanner state is:
`none` — inside ordinary fragment text (`frag` is the reversed
accumulator); `some (pend, found)` — a `\n` was seen, `pend` is the
(reversed) whitespace read since the most recent `\n`, and `found`
records whether a second `\n` has been seen (i.e. a separator is
complete up to the most recent `\n`). -/
def goSplit : Option (List Char × Bool) → List Char → List Char → List (List Char)
  | none, frag, [] => [frag.reverse]
  | none, frag, '\n' :: rest => goSplit (some ([], false)) frag rest
  | none, frag, c :: rest => goSplit none (c :: frag) rest
  | some (pend, found), frag, [] =>
      if found then [frag.reverse, pend.reverse]
      else [(pend ++ '\n' :: frag).reverse]
  | some (_, _), frag, '\n' :: rest => goSplit (some ([], true)) frag rest
  | some (pend, found), frag, c :: rest =>
      if isWs c then goSplit (some (c :: pend, found)) frag rest
      else if found then frag.reverse :: goSplit none (c :: pend) rest
      else goSplit none (c :: (pend ++ '\n' :: frag)) rest

/-- `text.split(/\n\s*\n/)` on a character list. -/
def splitParas (l : List Char) : List (List Char) :=
  goSplit none [] l

/-- `text.split('\n')` (source line 198). -/
def splitNlGo (acc : List Char) : List Char → List (List Char)
  | [] => [acc.reverse]
  | '\n' :: rest => acc.reverse :: splitNlGo [] rest
  | c :: rest => splitNlGo (c :: acc) rest

/-- Split a character list on `\n`, JS `split('\n')` semantics. -/
def splitNl (l : List Char) : List (List Char) :=
  splitNlGo [] l

/-- Tiny regex AST covering exactly the constructs of the source's
GIVEN/WHEN/THEN regex
`/GIVEN\s+(.+?)\s+WHEN\s+(.+?)\s+THEN\s+(.+?)(?:\s*$|\n)/gi`:
case-insensitive literals, an exact literal, greedy `\s+`, greedy
`\s*`, lazy `(.+?)` (captures are irrelevant: with the `g` flag the
source only ever sees full match strings), sequence, alternation and
the `$` anchor (JS `$` without `m` matches only at the very end). -/
inductive RE where
  | litci (s : List Char)
  | lit (s : List Char)
  | wsPlusG
  | wsStarG
  | dotPlusL
  | seq (a b : RE)
  | alt (a b : RE)
  | atEnd
deriving Repr

/-- Backtracking matcher: all remainders after matching a prefix of `l`
against the pattern, in backtracking priority order (head = the
remainder the JS engine commits to). -/
def RE.mtch : RE → List Char → List (List Char)
  | .litci p, l =>
      match stripPrefixCI p l with
      | some r => [r]
      | none => []
  | .lit p, l =>
      match stripPrefixE p l with
      | some r => [r]
      | none => []
  | .wsPlusG, l =>
      (List.range (l.takeWhile isWs).length).reverse.map (fun k => l.drop (k+1))
  | .wsStarG, l =>
      (List.range ((l.takeWhile isWs).length + 1)).reverse.map (fun k => l.drop k)
  | .dotPlusL, l =>
      (List.range (l.takeWhile jsDot).length).map (fun k => l.drop (k+1))
  | .seq a b, l => (a.mtch l).flatMap b.mtch
  | .alt a b, l => a.mtch l ++ b.mtch l
  | .atEnd, l => match l with
      | [] => [[]]
      | _ :: _ => []

/-- The source's GWT regex, transliterated construct by construct. -/
def gwtRE : RE :=
  .seq (.litci ['G','I','V','E','N'])
    (.seq .wsPlusG (.seq .dotPlusL
      (.seq .wsPlusG (.seq (.litci ['W','H','E','N'])
        (.seq .wsPlusG (.seq .dotPlusL
          (.seq .wsPlusG (.seq (.litci ['T','H','E','N'])
            (.seq .wsPlusG (.seq .dotPlusL
              (.alt (.seq .wsStarG .atEnd) (.lit ['\n']))))))))))))

/-- Global (`g`-flag) matching scan, fuelled for structural recursion:
at each position try the pattern; on failure advance one character; on
a non-empty match record the matched prefix and continue after it (JS
`lastIndex`); on an empty match record it and advance one character.
The wrapper below supplies fuel equal to the input length, which the
scan never exhausts. -/
def matchAllGo (r : RE) : Nat → List Char → List (List Char)
  | 0, _ => []
  | _ + 1, [] => if (r.mtch []).isEmpty then [] else [[]]
  | fuel + 1, c :: rest =>
      match (r.mtch (c :: rest)).head? with
      | none => matchAllGo r fuel rest
      | some rem =>
          let k := (c :: rest).length - rem.length
          if k = 0 then [] :: matchAllGo r fuel rest
          else (c :: rest).take k :: matchAllGo r fuel ((c :: rest).drop k)

/-- `str.match(re)` with the `g` flag: list of full match strings
(`[]` models a `null` result). -/
def matchAll (r : RE) (l : List Char) : List (List Char) :=
  matchAllGo r l.length l

/-- `paragraph.match(/GIVEN\s+...(?:\s*$|\n)/gi)` (source line 170). -/
def gwtMatches (p : String) : List (List Char) :=
  matchAll gwtRE p.data

/-- Length of the `(?:\d+\.|\*|-)` marker prefix, if present: either a
nonempty digit run immediately followed by `.`, or a single `*` or `-`.
Inner helper: after at least one digit has been read, accept `.` or a
further digit. -/
def dotAfterDigits : List Char → Option Nat
  | [] => none
  | c :: rest =>
      if c = '.' then some 1
      else if isDigitC c then (dotAfterDigits rest).map (· + 1) else none

/-- Marker-prefix length for `/^(?:\d+\.|\*|-)/`.  The three regex
alternatives have pairwise distinct possible first characters, so
alternation order is immaterial. -/
def bulletMarkerLen : List Char → Option Nat
  | [] => none
  | c :: rest =>
      if c = '*' ∨ c = '-' then some 1
      else if isDigitC c then (dotAfterDigits rest).map (· + 1) else none

/-- `/^(?:\d+\.|\*|-)\s*(.+)/.test(trimmedLine)` (source line 203): a
marker prefix, then some backtrackable amount of `\s`, then at least
one `.`-character.  Because every non-whitespace character is a
`.`-character and space/tab are both `\s` and `.`, the test after the
marker reduces to: some character of the rest is not a line
terminator (if the first non-whitespace character exists it witnesses
this; in an all-whitespace rest any space/tab witnesses it with the
`\s*` stopping just before it). -/
def bulletTest (l : List Char) : Bool :=
  match bulletMarkerLen l with
  | some k => (l.drop k).any jsDot
  | none => false

/-- `trimmedLine.replace(/^(?:\d+\.|\*|-)\s*/, '')` (source line 207):
if the anchored pattern matches, remove the marker and the maximal
whitespace run after it (greedy `\s*` with nothing following);
otherwise the string is unchanged. -/
def bulletStrip (l : List Char) : List Char :=
  match bulletMarkerLen l with
  | some k => (l.drop k).dropWhile isWs
  | none => l

/-- `/(?:should|must|will|shall|can|able to)/i.test(trimmedLine)`
(source line 204). -/
def keywordTest (l : List Char) : Bool :=
  containsCI l "should".data || containsCI l "must".data ||
  containsCI l "will".data || containsCI l "shall".data ||
  containsCI l "can".data || containsCI l "able to".data

/-- The `status` union type of the `AcceptanceCriteria` interface. -/
inductive ACStatus where
  | pending
  | inProgress
  | completed
deriving DecidableEq, Repr

/-- The `AcceptanceCriteria` interface (source lines 34-39); absent
`testCases` is `none`. -/
structure AcceptanceCriteria where
  id : String
  criterion : String
  status : ACStatus
  testCases : Option (List String)
deriving DecidableEq, Repr

/-- Decimal digit character, `d` is always `< 10` at use sites. -/
def digitChar : Nat → Char
  | 0 => '0' | 1 => '1' | 2 => '2' | 3 => '3' | 4 => '4'
  | 5 => '5' | 6 => '6' | 7 => '7' | 8 => '8' | 9 => '9'
  | _ => '0'

/-- Decimal digits of `n`, most significant first (fuelled so the
definition is structurally recursive and kernel-reducible; the wrapper
supplies fuel `n + 1`, which always suffices since `n` shrinks by a
factor of 10 each step). -/
def natDigitsGo : Nat → Nat → List Char
  | 0, _ => []
  | fuel + 1, n =>
      if n < 10 then [digitChar n]
      else natDigitsGo fuel (n / 10) ++ [digitChar (n % 10)]

/-- Decimal digit list of a natural number. -/
def natDigits (n : Nat) : List Char :=
  natDigitsGo (n + 1) n

/-- JS number-to-string for the non-negative integers used in ids
(template literals like `AC-${index}`). -/
def natToStr (n : Nat) : String :=
  String.mk (natDigits n)

/-- The GIVEN-paragraph loop of `parseAcceptanceCriteria` (source lines
166-193), with the running `index` counter.  For a paragraph that
starts (after whitespace) with `GIVEN`:
* if the `g`-flagged match is `null` (no full GWT present), push the
  paragraph's trimmed text verbatim (`AC-<index>`, pending, no
  `testCases`);
* if it matched, the source reads `gwtMatch[1]`, `gwtMatch[2]`,
  `gwtMatch[3]` — entries of the FULL-MATCH array, not capture groups.
  With fewer than 4 full matches one of these is `undefined` and
  `.trim()` on it throws a `TypeError`; with at least 4 full matches
  the pushed criterion and test cases are built from full matches 1-3.
Other paragraphs are skipped. -/
def gwtLoop (i : Nat) : List String → Except String (Nat × List AcceptanceCriteria)
  | [] => .ok (i, [])
  | p :: rest =>
      if startsGivenCI p.data then
        if gwtMatches p = [] then
          match gwtLoop (i + 1) rest with
          | .error e => .error e
          | .ok (n, cs) =>
              .ok (n, ⟨"AC-" ++ natToStr i, jsTrim p, .pending, none⟩ :: cs)
        else
          if h : 3 < (gwtMatches p).length then
            match gwtLoop (i + 1) rest with
            | .error e => .error e
            | .ok (n, cs) =>
                .ok (n,
                  ⟨"AC-" ++ natToStr i,
                    "GIVEN " ++ String.mk (trimChars ((gwtMatches p).get ⟨1, by omega⟩)) ++
                    "\nWHEN " ++ String.mk (trimChars ((gwtMatches p).get ⟨2, by omega⟩)) ++
                    "\nTHEN " ++ String.mk (trimChars ((gwtMatches p).get ⟨3, by omega⟩)),
                    .pending,
                    some ["Test: " ++ String.mk (trimChars ((gwtMatches p).get ⟨2, by omega⟩)),
                          "Expected: " ++ String.mk (trimChars ((gwtMatches p).get ⟨3, by omega⟩))]⟩ :: cs)
          else .error "TypeError"
      else gwtLoop i rest

/-- The fallback line loop of `parseAcceptanceCriteria` (source lines
198-215): a line qualifies when (bullet/number marker followed by
content, or a modal keyword) and its trimmed length exceeds 10; the
pushed criterion is the trimmed line with one leading marker stripped. -/
def heurLoop (i : Nat) : List String → Nat × List AcceptanceCriteria
  | [] => (i, [])
  | line :: rest =>
      if (bulletTest (jsTrim line).data || keywordTest (jsTrim line).data)
          ∧ 10 < (jsTrim line).data.length then
        ((heurLoop (i + 1) rest).1,
          ⟨"AC-" ++ natToStr i,
            String.mk (trimChars (bulletStrip (jsTrim line).data)),
            .pending, none⟩ :: (heurLoop (i + 1) rest).2)
      else heurLoop i rest

/-- `text.split(/\n\s*\n/).filter(p => p.trim())` (source line 164):
paragraphs whose trim is a non-empty (truthy) string. -/
def paragraphsOf (text : String) : List String :=
  ((splitParas text.data).map String.mk).filter (fun p => decide (jsTrim p ≠ ""))

/-- `JiraService.parseAcceptanceCriteria` (source lines 158-219): run
the GWT paragraph pass; if it produced no criteria, run the heuristic
line pass over all lines of the text with the same counter. -/
def parseAcceptanceCriteria (text : String) : Except String (List AcceptanceCriteria) :=
  match gwtLoop 1 (paragraphsOf text) with
  | .error e => .error e
  | .ok (i, cs) =>
      if cs = [] then .ok (heurLoop i ((splitNl text.data).map String.mk)).2
      else .ok cs

/-- The explicit-field mapping of `getAcceptanceCriteria` (source lines
143-147): `issue.acceptanceCriteria.map((ac, index) => ...)` with ids
`<issueKey>-AC-<index+1>`; `i` is `index + 1`. -/
def explicitGo (key : String) (i : Nat) : List String → List AcceptanceCriteria
  | [] => []
  | ac :: rest =>
      ⟨key ++ "-AC-" ++ natToStr i, ac, .pending, none⟩ :: explicitGo key (i + 1) rest

/-- The explicit-list contribution for an optional `acceptanceCriteria`
field (a JS array is truthy even when empty; `undefined` is falsy). -/
def explicitPart (acList : Option (List String)) (key : String) : List AcceptanceCriteria :=
  match acList with
  | some raw => explicitGo key 1 raw
  | none => []

/-- `JiraService.getAcceptanceCriteria` (source lines 129-151).
`description` models `issue.description` (`none` = absent, and the
empty string is falsy in `if (issue.description)`); criteria parsed
from the description (only when the marker scan matches) are followed
by the explicit-field criteria.  A `TypeError` thrown inside
`parseAcceptanceCriteria` propagates (the method has no try/catch). -/
def getAcceptanceCriteria (description : Option String)
    (acList : Option (List String)) (issueKey : String) :
    Except String (List AcceptanceCriteria) :=
  match description with
  | some d =>
      if d ≠ "" ∧ markerTest d.data = true then
        match parseAcceptanceCriteria d with
        | .error e => .error e
        | .ok cs => .ok (cs ++ explicitPart acList issueKey)
      else .ok ([] ++ explicitPart acList issueKey)
  | none => .ok ([] ++ explicitPart acList issueKey)

/-- Atlassian Document Format node, as discriminated by
`extractTextFromADF` (source lines 308-354) on `item.type`.  Each
container's `content` is optional (`undefined` is falsy; a present
empty array is truthy).  `heading` carries `attrs?.level` (`none` =
absent). `other` stands for any unrecognised `type`. -/
inductive ADFNode where
  | text (t : String)
  | paragraph (content : Option (List ADFNode))
  | bulletList (content : Option (List ADFNode))
  | orderedList (content : Option (List ADFNode))
  | codeBlock (content : Option (List ADFNode))
  | heading (level : Option Nat) (content : Option (List ADFNode))
  | listItem (content : Option (List ADFNode))
  | other (content : Option (List ADFNode))
deriving Repr

/-- `item.attrs?.level || 1`: absent — and also the falsy level `0` —
defaults to 1. -/
def headingLevel (lv : Option Nat) : Nat :=
  match lv with
  | some l => if l = 0 then 1 else l
  | none => 1

mutual

/-- Rendering of one node inside `extractFromContent`'s loop (source
lines 318-347).  A `listItem` outside a list and an `other` node fall
into the generic "recursively extract nested content" branch; inside
`bulletList`/`orderedList` only `listItem` children with content are
rendered (see `renderItems`). -/
def renderNode : ADFNode → String
  | .text t => t
  | .paragraph none => ""
  | .paragraph (some c) => renderNodes c ++ "\n\n"
  | .bulletList none => ""
  | .bulletList (some c) => renderItems c ++ "\n"
  | .orderedList none => ""
  | .orderedList (some c) => renderItems c ++ "\n"
  | .codeBlock none => ""
  | .codeBlock (some c) => "```\n" ++ renderNodes c ++ "\n```\n\n"
  | .heading _ none => ""
  | .heading lv (some c) =>
      String.mk (List.replicate (headingLevel lv) '#') ++ " " ++ renderNodes c ++ "\n\n"
  | .listItem none => ""
  | .listItem (some c) => renderNodes c
  | .other none => ""
  | .other (some c) => renderNodes c

/-- `extractFromContent(content)`: concatenation over the node list. -/
def renderNodes : List ADFNode → String
  | [] => ""
  | n :: rest => renderNode n ++ renderNodes rest

/-- The inner loop over a list's children (source lines 327-331):
each `listItem` with content emits `"- "` + rendered content + `"\n"`;
all other children are skipped. -/
def renderItems : List ADFNode → String
  | [] => ""
  | .listItem (some c) :: rest => "- " ++ renderNodes c ++ "\n" ++ renderItems rest
  | _ :: rest => renderItems rest

end

/-- The ADF document object: `none` models a null/absent
`adfContent`, and the `content` field may itself be absent. -/
structure ADFDoc where
  content : Option (List ADFNode)

/-- `JiraService.extractTextFromADF` (source lines 308-354): empty
string for a missing document or missing `content`, otherwise the
rendered text trimmed. -/
def extractTextFromADF : Option ADFDoc → String
  | none => ""
  | some d =>
      match d.content with
      | none => ""
      | some c => jsTrim (renderNodes c)

deriving instance DecidableEq for Except

/-! ### Helper lemmas: trimming -/

theorem dropWhile_head_false {p : Char → Bool} {l : List Char} {c : Char}
    (h : (l.dropWhile p).head? = some c) : p c = false := by
  induction l with
  | nil => simp [List.dropWhile] at h
  | cons a rest ih =>
      rw [List.dropWhile_cons] at h
      split at h
      · exact ih h
      · next hpa =>
          simp only [List.head?_cons, Option.some.injEq] at h
          subst h
          exact Bool.not_eq_true _ ▸ (by simpa using hpa)

theorem dropWhile_eq_self_of_head {p : Char → Bool} {l : List Char}
    (h : ∀ c, l.head? = some c → p c = false) : l.dropWhile p = l := by
  cases l with
  | nil => rfl
  | cons a rest =>
      rw [List.dropWhile_cons, h a rfl]
      simp

theorem dropWhile_dropWhile {p : Char → Bool} (l : List Char) :
    (l.dropWhile p).dropWhile p = l.dropWhile p :=
  dropWhile_eq_self_of_head (fun _ hc => dropWhile_head_false hc)

theorem getLast?_dropWhile {p : Char → Bool} {l : List Char}
    (h : l.dropWhile p ≠ []) : (l.dropWhile p).getLast? = l.getLast? := by
  induction l with
  | nil => simp at h
  | cons a rest ih =>
      rw [List.dropWhile_cons]
      rw [List.dropWhile_cons] at h
      split
      · next hpa =>
          rw [if_pos hpa] at h
          have hrest : rest ≠ [] := by
            intro he
            subst he
            simp [List.dropWhile] at h
          rw [ih h]
          cases rest with
          | nil => exact absurd rfl hrest
          | cons b t => rw [List.getLast?_cons_cons]
      · rfl

theorem trimChars_idem (l : List Char) : trimChars (trimChars l) = trimChars l := by
  unfold trimChars
  have hstep : ((((l.dropWhile isWs).reverse.dropWhile isWs).reverse).dropWhile isWs)
      = ((l.dropWhile isWs).reverse.dropWhile isWs).reverse := by
    apply dropWhile_eq_self_of_head
    intro c hc
    rw [List.head?_reverse] at hc
    by_cases hne : (l.dropWhile isWs).reverse.dropWhile isWs = []
    · rw [hne] at hc
      simp at hc
    · rw [getLast?_dropWhile hne, List.getLast?_reverse] at hc
      exact dropWhile_head_false hc
  rw [hstep, List.reverse_reverse, dropWhile_dropWhile]

theorem mem_of_getLast? {l : List Char} {a : Char} (h : l.getLast? = some a) : a ∈ l := by
  induction l with
  | nil => simp at h
  | cons c rest ih =>
      cases rest with
      | nil =>
          simp only [List.getLast?_singleton, Option.some.injEq] at h
          simp [h]
      | cons b t =>
          rw [List.getLast?_cons_cons] at h
          exact List.mem_cons_of_mem _ (ih h)

theorem trimChars_ne_nil {l : List Char} {c : Char}
    (hc : c ∈ l) (hw : isWs c = false) : trimChars l ≠ [] := by
  unfold trimChars
  intro h
  rw [List.reverse_eq_nil_iff, List.dropWhile_eq_nil_iff] at h
  have hcd : c ∈ l.dropWhile isWs := by
    have hsplit := List.takeWhile_append_dropWhile (p := isWs) (l := l)
    rcases (List.mem_append.mp (by rw [hsplit]; exact hc)) with htk | hdw
    · exact absurd (List.mem_takeWhile_imp htk) (by simp [hw])
    · exact hdw
  exact absurd (h c (List.mem_reverse.mpr hcd)) (by simp [hw])

theorem trimChars_eq_self {l : List Char}
    (h1 : ∀ c, l.head? = some c → isWs c = false)
    (h2 : ∀ c, l.getLast? = some c → isWs c = false) : trimChars l = l := by
  unfold trimChars
  rw [dropWhile_eq_self_of_head h1]
  rw [dropWhile_eq_self_of_head (fun c hc => h2 c (List.head?_reverse l ▸ hc))]
  exact List.reverse_reverse l

theorem trimChars_getLast {l : List Char} {c : Char}
    (h : (trimChars l).getLast? = some c) : isWs c = false := by
  unfold trimChars at h
  rw [List.getLast?_reverse] at h
  exact dropWhile_head_false h

/-! ### Helper lemmas: decimal numerals and criterion ids -/

/-- Numeric value of a digit character. -/
def digitVal (c : Char) : Nat := c.toNat - 48

theorem digitVal_digitChar : ∀ d, d < 10 → digitVal (digitChar d) = d := by decide

theorem digitChar_range (d : Nat) :
    48 ≤ (digitChar d).toNat ∧ (digitChar d).toNat ≤ 57 := by
  unfold digitChar
  split <;> decide

theorem natDigitsGo_foldl :
    ∀ fuel n a, n < fuel →
      (natDigitsGo fuel n).foldl (fun acc c => 10 * acc + digitVal c) a
        = a * 10 ^ (natDigitsGo fuel n).length + n := by
  intro fuel
  induction fuel with
  | zero => intro n a h; omega
  | succ fuel ih =>
      intro n a h
      unfold natDigitsGo
      split
      · next h10 =>
          simp only [List.foldl_cons, List.foldl_nil, List.length_singleton]
          rw [digitVal_digitChar n h10]
          ring
      · next h10 =>
          have hn0 : 0 < n := by omega
          have hdiv : n / 10 < fuel := by
            have := Nat.div_lt_self hn0 (by omega : 1 < 10)
            omega
          rw [List.foldl_append, ih (n / 10) a hdiv]
          simp only [List.foldl_cons, List.foldl_nil, List.length_append,
            List.length_singleton]
          rw [digitVal_digitChar (n % 10) (Nat.mod_lt n (by omega))]
          have := Nat.div_add_mod n 10
          ring_nf
          omega

theorem natDigits_inj {m n : Nat} (h : natDigits m = natDigits n) : m = n := by
  have hm := natDigitsGo_foldl (m + 1) m 0 (by omega)
  have hn := natDigitsGo_foldl (n + 1) n 0 (by omega)
  unfold natDigits at h
  rw [h] at hm
  omega

theorem natDigits_digit : ∀ fuel n c, c ∈ natDigitsGo fuel n →
    48 ≤ c.toNat ∧ c.toNat ≤ 57 := by
  intro fuel
  induction fuel with
  | zero => intro n c h; simp [natDigitsGo] at h
  | succ fuel ih =>
      intro n c h
      unfold natDigitsGo at h
      split at h
      · simp only [List.mem_singleton] at h
        subst h
        exact digitChar_range n
      · rcases List.mem_append.mp h with h1 | h2
        · exact ih _ _ h1
        · simp only [List.mem_singleton] at h2
          subst h2
          exact digitChar_range (n % 10)

theorem dash_not_mem_natDigits (n : Nat) : '-' ∉ natDigits n := by
  intro h
  have := natDigits_digit (n + 1) n '-' h
  simp at this

theorem natToStr_inj {m n : Nat} (h : natToStr m = natToStr n) : m = n :=
  natDigits_inj (congrArg String.data h)

theorem dash_count_natDigits (n : Nat) : (natDigits n).count '-' = 0 :=
  List.count_eq_zero.mpr (dash_not_mem_natDigits n)

theorem textId_data (i : Nat) :
    ("AC-" ++ natToStr i).data = 'A' :: 'C' :: '-' :: natDigits i := by
  rw [String.data_append]
  rfl

theorem natToStr_data (i : Nat) : (natToStr i).data = natDigits i := rfl

theorem explId_data (key : String) (i : Nat) :
    (key ++ "-AC-" ++ natToStr i).data
      = key.data ++ '-' :: 'A' :: 'C' :: '-' :: natDigits i := by
  rw [String.data_append, String.data_append, natToStr_data, List.append_assoc]
  rfl

theorem textId_inj {i j : Nat} (h : "AC-" ++ natToStr i = "AC-" ++ natToStr j) :
    i = j := by
  have hd := congrArg String.data h
  rw [textId_data, textId_data] at hd
  simp only [List.cons.injEq, true_and] at hd
  exact natDigits_inj hd

theorem explId_inj {key : String} {i j : Nat}
    (h : key ++ "-AC-" ++ natToStr i = key ++ "-AC-" ++ natToStr j) : i = j := by
  have hd := congrArg String.data h
  rw [explId_data, explId_data] at hd
  have := List.append_cancel_left hd
  simp only [List.cons.injEq, true_and] at this
  exact natDigits_inj this

theorem textId_ne_explId (i : Nat) (key : String) (j : Nat) :
    "AC-" ++ natToStr i ≠ key ++ "-AC-" ++ natToStr j := by
  intro h
  have hd := congrArg (fun s => s.data.count '-') h
  simp only [textId_data, explId_data] at hd
  have h1 : ('A' :: 'C' :: '-' :: natDigits i).count '-' = 1 := by
    simp [List.count_cons, dash_count_natDigits]
  have h2 : (key.data ++ '-' :: 'A' :: 'C' :: '-' :: natDigits j).count '-'
      = key.data.count '-' + 2 := by
    rw [List.count_append]
    simp [List.count_cons, dash_count_natDigits]
  omega

/-! ### Helper lemmas: the GWT matcher -/

theorem stripPrefixCI_length : ∀ {p l r : List Char},
    stripPrefixCI p l = some r → r.length + p.length = l.length := by
  intro p
  induction p with
  | nil => intro l r h; simp [stripPrefixCI] at h; simp [h]
  | cons a ps ih =>
      intro l r h
      cases l with
      | nil => simp [stripPrefixCI] at h
      | cons c cs =>
          rw [stripPrefixCI] at h
          split at h
          · have := ih h
            simp only [List.length_cons]
            omega
          · exact absurd h (by simp)

theorem RE_mtch_length : ∀ (r : RE) (l rem : List Char),
    rem ∈ r.mtch l → rem.length ≤ l.length := by
  intro r
  induction r with
  | litci p =>
      intro l rem h
      rw [RE.mtch] at h
      split at h
      · next hr =>
          simp only [List.mem_singleton] at h
          subst h
          have := stripPrefixCI_length hr
          omega
      · simp at h
  | lit p =>
      intro l rem h
      rw [RE.mtch] at h
      split at h
      · next r0 hr =>
          simp only [List.mem_singleton] at h
          subst h
          have : ∀ {p l r : List Char}, stripPrefixE p l = some r →
              r.length ≤ l.length := by
            intro p
            induction p with
            | nil => intro l r h; simp [stripPrefixE] at h; simp [h]
            | cons a ps ih =>
                intro l r h
                cases l with
                | nil => simp [stripPrefixE] at h
                | cons c cs =>
                    rw [stripPrefixE] at h
                    split at h
                    · have := ih h
                      simp only [List.length_cons]
                      omega
                    · exact absurd h (by simp)
          exact this hr
      · simp at h
  | wsPlusG =>
      intro l rem h
      rw [RE.mtch] at h
      rcases List.mem_map.mp h with ⟨k, _, hk⟩
      subst hk
      simp [List.length_drop]
  | wsStarG =>
      intro l rem h
      rw [RE.mtch] at h
      rcases List.mem_map.mp h with ⟨k, _, hk⟩
      subst hk
      simp [List.length_drop]
  | dotPlusL =>
      intro l rem h
      rw [RE.mtch] at h
      rcases List.mem_map.mp h with ⟨k, _, hk⟩
      subst hk
      simp [List.length_drop]
  | seq a b iha ihb =>
      intro l rem h
      rw [RE.mtch] at h
      rcases List.mem_flatMap.mp h with ⟨mid, hmid, hrem⟩
      exact le_trans (ihb mid rem hrem) (iha l mid hmid)
  | alt a b iha ihb =>
      intro l rem h
      rw [RE.mtch] at h
      rcases List.mem_append.mp h with h1 | h1
      · exact iha l rem h1
      · exact ihb l rem h1
  | atEnd =>
      intro l rem h
      cases l with
      | nil =>
          have he : RE.mtch RE.atEnd ([] : List Char) = [[]] := rfl
          rw [he] at h
          simp only [List.mem_singleton] at h
          subst h
          simp
      | cons c cs =>
          have he : RE.mtch RE.atEnd (c :: cs) = [] := rfl
          rw [he] at h
          simp at h

theorem gwt_mtch_head {l : List Char} (h : RE.mtch gwtRE l ≠ []) :
    ∃ c cs, l = c :: cs ∧ ciEq 'G' c = true := by
  rw [gwtRE, RE.mtch] at h
  cases l with
  | nil =>
      exact absurd rfl h
  | cons c cs =>
      refine ⟨c, cs, rfl, ?_⟩
      by_contra hci
      have hci2 : ciEq 'G' c = false := by
        cases hcc : ciEq 'G' c
        · rfl
        · exact absurd hcc hci
      apply h
      have hnone : stripPrefixCI ['G','I','V','E','N'] (c :: cs) = none := by
        rw [stripPrefixCI, hci2]
        simp
      show ((RE.litci ['G','I','V','E','N']).mtch (c :: cs)).flatMap _ = []
      rw [show (RE.litci ['G','I','V','E','N']).mtch (c :: cs)
            = (match stripPrefixCI ['G','I','V','E','N'] (c :: cs) with
               | some r => [r] | none => []) from rfl, hnone]
      rfl

theorem gwt_mtch_rem_lt {l rem : List Char} (h : rem ∈ RE.mtch gwtRE l) :
    rem.length < l.length := by
  have hne : RE.mtch gwtRE l ≠ [] := by
    intro he
    rw [he] at h
    simp at h
  obtain ⟨c, cs, hl, _⟩ := gwt_mtch_head hne
  subst hl
  rw [gwtRE, RE.mtch] at h
  rcases List.mem_flatMap.mp h with ⟨mid, hmid, hrem⟩
  rw [RE.mtch] at hmid
  revert hmid
  split
  · next r0 hr =>
      intro hmid
      simp only [List.mem_singleton] at hmid
      subst hmid
      have h5 := stripPrefixCI_length hr
      have hle := RE_mtch_length _ _ _ hrem
      simp only [List.length_cons] at h5 ⊢
      omega
  · intro hmid
    simp at hmid

theorem ciEq_G_not_ws {c : Char} (h : ciEq 'G' c = true) : isWs c = false := by
  have hG : lowerN 'G' = 103 := by decide
  rw [ciEq, hG, beq_iff_eq] at h
  rw [isWs]
  rw [lowerN] at h
  split at h <;> simp <;> omega

theorem matchAll_mem_head : ∀ (fuel : Nat) (l m : List Char),
    m ∈ matchAllGo gwtRE fuel l → ∃ c ms, m = c :: ms ∧ ciEq 'G' c = true := by
  intro fuel
  induction fuel with
  | zero => intro l m h; simp [matchAllGo] at h
  | succ fuel ih =>
      intro l m h
      cases l with
      | nil =>
          rw [matchAllGo] at h
          have hnil : RE.mtch gwtRE [] = [] := by
            by_contra hne
            obtain ⟨c, cs, hbad, _⟩ := gwt_mtch_head hne
            simp at hbad
          rw [hnil] at h
          simp at h
      | cons c rest =>
          rw [matchAllGo] at h
          revert h
          split
          · exact fun h => ih rest m h
          · next rem hrem =>
              intro h
              have hmem : rem ∈ RE.mtch gwtRE (c :: rest) :=
                List.mem_of_mem_head? hrem
              have hlt := gwt_mtch_rem_lt hmem
              have hkpos : (c :: rest).length - rem.length ≠ 0 := by
                simp only [List.length_cons] at hlt ⊢
                omega
              rw [if_neg hkpos] at h
              rcases List.mem_cons.mp h with h1 | h1
              · have hne : RE.mtch gwtRE (c :: rest) ≠ [] := by
                  intro he
                  rw [he] at hmem
                  simp at hmem
                obtain ⟨c2, cs2, hl2, hci⟩ := gwt_mtch_head hne
                injection hl2 with hc2 _
                subst hc2
                obtain ⟨k, hk⟩ : ∃ k, (c :: rest).length - rem.length = k + 1 := by
                  refine ⟨(c :: rest).length - rem.length - 1, ?_⟩
                  omega
                rw [hk] at h1
                rw [List.take_succ_cons] at h1
                exact ⟨c, _, h1, hci⟩
              · exact ih _ m h1

/-! ### Helper lemmas: id shapes of the loops -/

theorem range_succ_shift {α : Type} (f : Nat → α) (m i : Nat) :
    (List.range (m + 1)).map (fun j => f (i + j))
      = f i :: (List.range m).map (fun j => f ((i + 1) + j)) := by
  rw [List.range_succ_eq_map, List.map_cons, List.map_map]
  refine congrArg₂ List.cons rfl ?_
  apply List.map_congr_left
  intro j _
  simp only [Function.comp_apply]
  congr 1
  omega

theorem gwtLoop_ids : ∀ (ps : List String) (i n : Nat) (cs : List AcceptanceCriteria),
    gwtLoop i ps = .ok (n, cs) →
    cs.map (fun c => c.id)
      = (List.range cs.length).map (fun j => "AC-" ++ natToStr (i + j)) := by
  intro ps
  induction ps with
  | nil =>
      intro i n cs h
      rw [gwtLoop] at h
      simp only [Except.ok.injEq, Prod.mk.injEq] at h
      obtain ⟨-, h2⟩ := h
      subst h2
      simp
  | cons p rest ih =>
      intro i n cs h
      rw [gwtLoop] at h
      split at h
      · split at h
        · split at h
          · exact absurd h (by simp)
          · next n0 cs0 heq =>
              simp only [Except.ok.injEq, Prod.mk.injEq] at h
              obtain ⟨-, hcs⟩ := h
              subst hcs
              simp only [List.length_cons, List.map_cons]
              rw [range_succ_shift (fun x => "AC-" ++ natToStr x)]
              exact congrArg₂ List.cons rfl (ih _ _ _ heq)
        · split at h
          · split at h
            · exact absurd h (by simp)
            · next n0 cs0 heq =>
                simp only [Except.ok.injEq, Prod.mk.injEq] at h
                obtain ⟨-, hcs⟩ := h
                subst hcs
                simp only [List.length_cons, List.map_cons]
                rw [range_succ_shift (fun x => "AC-" ++ natToStr x)]
                exact congrArg₂ List.cons rfl (ih _ _ _ heq)
          · exact absurd h (by simp)
      · exact ih _ _ _ h

theorem heurLoop_ids : ∀ (lines : List String) (i n : Nat) (cs : List AcceptanceCriteria),
    heurLoop i lines = (n, cs) →
    cs.map (fun c => c.id)
      = (List.range cs.length).map (fun j => "AC-" ++ natToStr (i + j)) := by
  intro lines
  induction lines with
  | nil =>
      intro i n cs h
      rw [heurLoop] at h
      simp only [Prod.mk.injEq] at h
      obtain ⟨-, h2⟩ := h
      subst h2
      simp
  | cons line rest ih =>
      intro i n cs h
      rw [heurLoop] at h
      split at h
      · simp only [Prod.mk.injEq] at h
        obtain ⟨-, hcs⟩ := h
        subst hcs
        simp only [List.length_cons, List.map_cons]
        rw [range_succ_shift (fun x => "AC-" ++ natToStr x)]
        exact congrArg₂ List.cons rfl
          (ih (i + 1) (heurLoop (i + 1) rest).1 (heurLoop (i + 1) rest).2 rfl)
      · exact ih _ _ _ h

theorem parse_ids {text : String} {l : List AcceptanceCriteria}
    (h : parseAcceptanceCriteria text = .ok l) :
    ∃ i0, l.map (fun c => c.id)
      = (List.range l.length).map (fun j => "AC-" ++ natToStr (i0 + j)) := by
  rw [parseAcceptanceCriteria] at h
  split at h
  · exact absurd h (by simp)
  · next i cs heq =>
      split at h
      · simp only [Except.ok.injEq] at h
        subst h
        exact ⟨i, heurLoop_ids _ _ _ _ rfl⟩
      · simp only [Except.ok.injEq] at h
        subst h
        exact ⟨1, gwtLoop_ids _ _ _ _ heq⟩

theorem explicitGo_ids (key : String) : ∀ (raw : List String) (i : Nat),
    (explicitGo key i raw).map (fun c => c.id)
      = (List.range raw.length).map (fun j => key ++ "-AC-" ++ natToStr (i + j)) := by
  intro raw
  induction raw with
  | nil => intro i; simp [explicitGo]
  | cons a rest ih =>
      intro i
      rw [explicitGo, List.map_cons, List.length_cons,
        range_succ_shift (fun x => key ++ "-AC-" ++ natToStr x)]
      exact congrArg₂ List.cons rfl (ih (i + 1))

theorem nodup_text_ids (m i : Nat) :
    ((List.range m).map (fun j => "AC-" ++ natToStr (i + j))).Nodup := by
  refine List.Nodup.map ?_ (List.nodup_range m)
  intro a b hab
  have := textId_inj hab
  omega

theorem nodup_expl_ids (key : String) (m i : Nat) :
    ((List.range m).map (fun j => key ++ "-AC-" ++ natToStr (i + j))).Nodup := by
  refine List.Nodup.map ?_ (List.nodup_range m)
  intro a b hab
  have := explId_inj hab
  omega

theorem explicitPart_ids_nodup (acl : Option (List String)) (key : String) :
    ((explicitPart acl key).map (fun c => c.id)).Nodup := by
  cases acl with
  | none => simp [explicitPart]
  | some raw =>
      rw [explicitPart, explicitGo_ids]
      exact nodup_expl_ids key raw.length 1

theorem text_expl_ids_disjoint (m i : Nat) (acl : Option (List String)) (key : String) :
    ∀ x ∈ (List.range m).map (fun j => "AC-" ++ natToStr (i + j)),
      x ∉ (explicitPart acl key).map (fun c => c.id) := by
  intro x hx hx2
  rcases List.mem_map.mp hx with ⟨a, -, ha⟩
  cases acl with
  | none => simp [explicitPart] at hx2
  | some raw =>
      rw [explicitPart, explicitGo_ids] at hx2
      rcases List.mem_map.mp hx2 with ⟨b, -, hb⟩
      exact textId_ne_explId (i + a) key (1 + b) (ha.trans hb.symm)

/-! ### Helper lemmas: the criterion trimmed/non-empty invariant -/

theorem data_mk (l : List Char) : (String.mk l).data = l := rfl

theorem mk_data (s : String) : String.mk s.data = s := rfl

theorem string_ne_empty_of_data {s : String} (h : s.data ≠ []) : s ≠ "" := by
  intro he
  subst he
  exact h rfl

theorem jsTrim_idem (s : String) : jsTrim (jsTrim s) = jsTrim s :=
  congrArg String.mk (trimChars_idem s.data)

theorem exists_getLast? {l : List Char} (h : l ≠ []) : ∃ c, l.getLast? = some c := by
  cases hgl : l.getLast? with
  | none => exact absurd (List.getLast?_eq_none_iff.mp hgl) h
  | some c => exact ⟨c, rfl⟩

theorem getLast?_drop_of_ne_nil : ∀ (k : Nat) (l : List Char), l.drop k ≠ [] →
    (l.drop k).getLast? = l.getLast? := by
  intro k
  induction k with
  | zero => intro l h; rfl
  | succ k ih =>
      intro l h
      cases l with
      | nil => simp at h
      | cons c ls =>
          rw [List.drop_succ_cons] at h ⊢
          rw [ih ls h]
          have hls : ls ≠ [] := by
            intro he
            subst he
            simp at h
          cases ls with
          | nil => exact absurd rfl hls
          | cons b t => rw [List.getLast?_cons_cons]

theorem containsCI_first : ∀ {l : List Char} {w : Char} {ws : List Char},
    containsCIAux (w :: ws) l = true → ∃ c ∈ l, ciEq w c = true := by
  intro l
  induction l with
  | nil => intro w ws h; simp [containsCIAux, isPrefixCI] at h
  | cons c rest ih =>
      intro w ws h
      rw [containsCIAux, Bool.or_eq_true] at h
      rcases h with h1 | h1
      · rw [isPrefixCI, Bool.and_eq_true] at h1
        exact ⟨c, List.mem_cons_self c rest, h1.1⟩
      · rcases ih h1 with ⟨c2, hc2m, hc2⟩
        exact ⟨c2, List.mem_cons_of_mem c hc2m, hc2⟩

theorem dotAfterDigits_chars : ∀ {l : List Char} {k : Nat},
    dotAfterDigits l = some k → l.length ≤ k →
    ∀ c ∈ l, (isDigitC c || c = '.') = true := by
  intro l
  induction l with
  | nil => intro k _ _ c hc; simp at hc
  | cons a rest ih =>
      intro k h hlen c hc
      rw [dotAfterDigits] at h
      split at h
      · next ha =>
          simp only [Option.some.injEq] at h
          subst h
          simp only [List.length_cons] at hlen
          have hrest : rest = [] := List.length_eq_zero.mp (by omega)
          subst hrest
          simp only [List.mem_singleton] at hc
          subst hc
          simp [ha]
      · split at h
        · next hd =>
            rcases Option.map_eq_some'.mp h with ⟨k0, hk0, hkk⟩
            simp only [List.length_cons] at hlen
            rcases List.mem_cons.mp hc with hcc | hcc
            · subst hcc
              simp [hd]
            · exact ih hk0 (by omega) c hcc
        · exact absurd h (by simp)

theorem bulletMarker_all_chars {l : List Char} {k : Nat}
    (h : bulletMarkerLen l = some k) (hlen : l.length ≤ k) :
    ∀ c ∈ l, (isDigitC c || c = '.' || c = '*' || c = '-') = true := by
  cases l with
  | nil => intro c hc; simp at hc
  | cons a rest =>
      intro c hc
      rw [bulletMarkerLen] at h
      split at h
      · next ha =>
          simp only [Option.some.injEq] at h
          subst h
          simp only [List.length_cons] at hlen
          have hrest : rest = [] := List.length_eq_zero.mp (by omega)
          subst hrest
          simp only [List.mem_singleton] at hc
          subst hc
          rcases ha with ha | ha <;> simp [ha]
      · split at h
        · next hd =>
            rcases Option.map_eq_some'.mp h with ⟨k0, hk0, hkk⟩
            simp only [List.length_cons] at hlen
            rcases List.mem_cons.mp hc with hcc | hcc
            · subst hcc
              simp [hd]
            · have := dotAfterDigits_chars hk0 (by omega) c hcc
              rw [Bool.or_eq_true] at this
              rcases this with h2 | h2 <;> simp [h2]
        · exact absurd h (by simp)

theorem lowerN_small {c : Char} (hn : c.toNat < 65) : lowerN c = c.toNat := by
  rw [lowerN, if_neg (by omega)]

theorem markerish_not_kw {c : Char}
    (h : (isDigitC c || c = '.' || c = '*' || c = '-') = true) :
    ciEq 's' c = false ∧ ciEq 'm' c = false ∧ ciEq 'w' c = false ∧
    ciEq 'c' c = false ∧ ciEq 'a' c = false := by
  have hsmall : c.toNat < 65 ∧ 42 ≤ c.toNat := by
    simp only [Bool.or_eq_true, isDigitC, Bool.and_eq_true, decide_eq_true_eq] at h
    rcases h with ((hd | hd) | hd) | hd
    · omega
    · subst hd; refine ⟨by decide, by decide⟩
    · subst hd; refine ⟨by decide, by decide⟩
    · subst hd; refine ⟨by decide, by decide⟩
  have hl : lowerN c = c.toNat := lowerN_small hsmall.1
  have hs : lowerN 's' = 115 := by decide
  have hm : lowerN 'm' = 109 := by decide
  have hw : lowerN 'w' = 119 := by decide
  have hc : lowerN 'c' = 99 := by decide
  have ha : lowerN 'a' = 97 := by decide
  refine ⟨?_, ?_, ?_, ?_, ?_⟩ <;>
    simp only [ciEq, hl, hs, hm, hw, hc, ha, beq_eq_false_iff_ne, ne_eq] <;>
    omega

theorem heur_content_ne_nil {line : String}
    (hguard : (bulletTest (jsTrim line).data || keywordTest (jsTrim line).data) = true)
    (hlen : 10 < (jsTrim line).data.length) :
    trimChars (bulletStrip (jsTrim line).data) ≠ [] := by
  have htd : trimChars (jsTrim line).data = (jsTrim line).data := by
    rw [data_mk]
    exact trimChars_idem line.data
  have hlast : ∀ c, (jsTrim line).data.getLast? = some c → isWs c = false := by
    intro c hc
    rw [data_mk] at hc
    exact trimChars_getLast hc
  rw [bulletStrip]
  cases hb : bulletMarkerLen (jsTrim line).data with
  | none =>
      rw [htd]
      intro he
      rw [he] at hlen
      simp at hlen
  | some k =>
      by_cases hd : (jsTrim line).data.drop k = []
      · exfalso
        have hbf : bulletTest (jsTrim line).data = false := by
          rw [bulletTest, hb]
          show (List.drop k (jsTrim line).data).any jsDot = false
          rw [hd]
          rfl
        rw [hbf, Bool.false_or] at hguard
        have hk : (jsTrim line).data.length ≤ k := by
          by_contra hlt
          rw [List.drop_eq_nil_iff] at hd
          omega
        have hmk := bulletMarker_all_chars hb hk
        rw [keywordTest] at hguard
        simp only [Bool.or_eq_true] at hguard
        rcases hguard with ((((hkw | hkw) | hkw) | hkw) | hkw) | hkw
        · obtain ⟨c, hcm, hci⟩ := @containsCI_first (jsTrim line).data 's' "hould".data hkw
          exact absurd hci (by simp [(markerish_not_kw (hmk c hcm)).1])
        · obtain ⟨c, hcm, hci⟩ := @containsCI_first (jsTrim line).data 'm' "ust".data hkw
          exact absurd hci (by simp [(markerish_not_kw (hmk c hcm)).2.1])
        · obtain ⟨c, hcm, hci⟩ := @containsCI_first (jsTrim line).data 'w' "ill".data hkw
          exact absurd hci (by simp [(markerish_not_kw (hmk c hcm)).2.2.1])
        · obtain ⟨c, hcm, hci⟩ := @containsCI_first (jsTrim line).data 's' "hall".data hkw
          exact absurd hci (by simp [(markerish_not_kw (hmk c hcm)).1])
        · obtain ⟨c, hcm, hci⟩ := @containsCI_first (jsTrim line).data 'c' "an".data hkw
          exact absurd hci (by simp [(markerish_not_kw (hmk c hcm)).2.2.2.1])
        · obtain ⟨c, hcm, hci⟩ := @containsCI_first (jsTrim line).data 'a' "ble to".data hkw
          exact absurd hci (by simp [(markerish_not_kw (hmk c hcm)).2.2.2.2])
      · obtain ⟨d, hgld⟩ := exists_getLast? hd
        have hdws : isWs d = false := by
          apply hlast
          rw [← getLast?_drop_of_ne_nil k _ hd]
          exact hgld
        have hSne : ((jsTrim line).data.drop k).dropWhile isWs ≠ [] := by
          intro he
          rw [List.dropWhile_eq_nil_iff] at he
          exact absurd (he d (mem_of_getLast? hgld)) (by simp [hdws])
        have hglS : (((jsTrim line).data.drop k).dropWhile isWs).getLast? = some d := by
          rw [getLast?_dropWhile hSne]
          exact hgld
        exact trimChars_ne_nil (mem_of_getLast? hglS) hdws

theorem structured_criterion_ok {t1 t2 t3 : List Char}
    (h3 : ∀ c, t3.getLast? = some c → isWs c = false) (h3ne : t3 ≠ []) :
    jsTrim ("GIVEN " ++ String.mk t1 ++ "\nWHEN " ++ String.mk t2 ++
        "\nTHEN " ++ String.mk t3)
      = "GIVEN " ++ String.mk t1 ++ "\nWHEN " ++ String.mk t2 ++
        "\nTHEN " ++ String.mk t3
    ∧ ("GIVEN " ++ String.mk t1 ++ "\nWHEN " ++ String.mk t2 ++
        "\nTHEN " ++ String.mk t3) ≠ "" := by
  have hd1 : ("GIVEN " ++ String.mk t1 ++ "\nWHEN " ++ String.mk t2 ++
      "\nTHEN " ++ String.mk t3).data
      = "GIVEN ".data ++ (t1 ++ ("\nWHEN ".data ++ (t2 ++ ("\nTHEN ".data ++ t3)))) := by
    simp only [String.data_append, data_mk, List.append_assoc]
  have hd2 : ("GIVEN " ++ String.mk t1 ++ "\nWHEN " ++ String.mk t2 ++
      "\nTHEN " ++ String.mk t3).data
      = ("GIVEN ".data ++ t1 ++ "\nWHEN ".data ++ t2 ++ "\nTHEN ".data) ++ t3 := by
    simp only [String.data_append, data_mk, List.append_assoc]
  have hhead : ∀ c, ("GIVEN " ++ String.mk t1 ++ "\nWHEN " ++ String.mk t2 ++
      "\nTHEN " ++ String.mk t3).data.head? = some c → isWs c = false := by
    intro c hc
    rw [hd1, List.head?_append_of_ne_nil _ (by decide : "GIVEN ".data ≠ [])] at hc
    have : c = 'G' := by
      have he : ("GIVEN ".data).head? = some 'G' := by decide
      rw [he] at hc
      exact (Option.some.injEq _ _ ▸ hc).symm
    subst this
    decide
  have hlast : ∀ c, ("GIVEN " ++ String.mk t1 ++ "\nWHEN " ++ String.mk t2 ++
      "\nTHEN " ++ String.mk t3).data.getLast? = some c → isWs c = false := by
    intro c hc
    rw [hd2, List.getLast?_append_of_ne_nil _ h3ne] at hc
    exact h3 c hc
  constructor
  · show String.mk (trimChars _) = _
    rw [trimChars_eq_self hhead hlast]
  · apply string_ne_empty_of_data
    rw [hd1]
    simp

theorem heurLoop_trimmed : ∀ (lines : List String) (i n : Nat)
    (cs : List AcceptanceCriteria), heurLoop i lines = (n, cs) →
    ∀ a ∈ cs, jsTrim a.criterion = a.criterion ∧ a.criterion ≠ "" := by
  intro lines
  induction lines with
  | nil =>
      intro i n cs h a ha
      rw [heurLoop] at h
      simp only [Prod.mk.injEq] at h
      obtain ⟨-, h2⟩ := h
      subst h2
      simp at ha
  | cons line rest ih =>
      intro i n cs h a ha
      rw [heurLoop] at h
      split at h
      · next hguard =>
          simp only [Prod.mk.injEq] at h
          obtain ⟨-, hcs⟩ := h
          subst hcs
          rcases List.mem_cons.mp ha with hac | hac
          · subst hac
            constructor
            · exact congrArg String.mk (trimChars_idem _)
            · exact string_ne_empty_of_data
                (heur_content_ne_nil (by exact hguard.1) hguard.2)
          · exact ih (i + 1) _ _ rfl a hac
      · exact ih i n cs h a ha

theorem gwtLoop_trimmed : ∀ (ps : List String) (i n : Nat)
    (cs : List AcceptanceCriteria), (∀ p ∈ ps, jsTrim p ≠ "") →
    gwtLoop i ps = .ok (n, cs) →
    ∀ a ∈ cs, jsTrim a.criterion = a.criterion ∧ a.criterion ≠ "" := by
  intro ps
  induction ps with
  | nil =>
      intro i n cs _ h a ha
      rw [gwtLoop] at h
      simp only [Except.ok.injEq, Prod.mk.injEq] at h
      obtain ⟨-, h2⟩ := h
      subst h2
      simp at ha
  | cons p rest ih =>
      intro i n cs hp h a ha
      have hp1 : jsTrim p ≠ "" := hp p (List.mem_cons_self p rest)
      have hprest : ∀ q ∈ rest, jsTrim q ≠ "" :=
        fun q hq => hp q (List.mem_cons_of_mem p hq)
      rw [gwtLoop] at h
      split at h
      · split at h
        · split at h
          · exact absurd h (by simp)
          · next n0 cs0 heq =>
              simp only [Except.ok.injEq, Prod.mk.injEq] at h
              obtain ⟨-, hcs⟩ := h
              subst hcs
              rcases List.mem_cons.mp ha with hac | hac
              · subst hac
                refine ⟨jsTrim_idem p, hp1⟩
              · exact ih (i + 1) _ _ hprest heq a hac
        · split at h
          · next hlen =>
              split at h
              · exact absurd h (by simp)
              · next n0 cs0 heq =>
                  simp only [Except.ok.injEq, Prod.mk.injEq] at h
                  obtain ⟨-, hcs⟩ := h
                  subst hcs
                  rcases List.mem_cons.mp ha with hac | hac
                  · subst hac
                    have hm3 : (gwtMatches p).get ⟨3, by omega⟩ ∈ gwtMatches p :=
                      List.get_mem _ _ _
                    obtain ⟨c, ms, hmc, hci⟩ :=
                      matchAll_mem_head p.data.length p.data _ hm3
                    have hcne : trimChars ((gwtMatches p).get ⟨3, by omega⟩) ≠ [] := by
                      rw [hmc]
                      exact trimChars_ne_nil (List.mem_cons_self c ms)
                        (ciEq_G_not_ws hci)
                    exact structured_criterion_ok
                      (fun c hc => trimChars_getLast hc) hcne
                  · exact ih (i + 1) _ _ hprest heq a hac
          · exact absurd h (by simp)
      · exact ih i n cs hprest h a ha

theorem parse_trimmed {text : String} {l : List AcceptanceCriteria}
    (h : parseAcceptanceCriteria text = .ok l) :
    ∀ a ∈ l, jsTrim a.criterion = a.criterion ∧ a.criterion ≠ "" := by
  rw [parseAcceptanceCriteria] at h
  split at h
  · exact absurd h (by simp)
  · next i cs heq =>
      split at h
      · simp only [Except.ok.injEq] at h
        subst h
        exact heurLoop_trimmed _ i _ _ rfl
      · simp only [Except.ok.injEq] at h
        subst h
        refine gwtLoop_trimmed _ 1 i _ ?_ heq
        intro q hq
        rw [paragraphsOf] at hq
        exact of_decide_eq_true (List.mem_filter.mp hq).2

/-! ### Claim theorems -/

set_option maxRecDepth 8000

/-- Claim C1 (code behaviour at the claimed input): the spec claims that a
paragraph fully matching GIVEN/WHEN/THEN yields one structured Criterion
with three-line text and two derived test cases; on the spec's own example
input the code instead throws a `TypeError`, because `match` with a
`g`-flagged regex returns only full match strings, so `gwtMatch[1]`,
`gwtMatch[2]`, `gwtMatch[3]` are `undefined` and `.trim()` on them
throws. -/
theorem c1_gwt_roundtrip_code_behavior :
    parseAcceptanceCriteria "GIVEN a user WHEN they click submit THEN an error shows\n\n"
      = .error "TypeError" := by decide

/-- Claim C2 (counterexample): the spec claims that for text with no AC
marker the heuristic line extractor runs over the rendered text, and that
this example yields two criteria; in the code the marker scan gates the
whole text-parsing pass, so a marker-free description contributes nothing
and the pipeline returns the empty list. -/
theorem c2_counterexample :
    getAcceptanceCriteria
      (some "- Users can log in\n- Users can log out\nThis is a note.\n") none "PROJ-1"
      = .ok [] := by decide

/-- Claim C2 (amended): when the step-1 marker scan finds no match the
description contributes no criteria at all (the heuristic pass is never
reached at pipeline level); the heuristic line scan lives inside
`parseAcceptanceCriteria` — reachable only when a marker was found — and
there the spec's example text does yield exactly the two claimed
criteria. -/
theorem c2_amended_heuristic_fallback :
    (∀ (d k : String), markerTest d.data = false →
        getAcceptanceCriteria (some d) none k = .ok []) ∧
    parseAcceptanceCriteria "- Users can log in\n- Users can log out\nThis is a note.\n"
      = .ok [⟨"AC-1", "Users can log in", .pending, none⟩,
             ⟨"AC-2", "Users can log out", .pending, none⟩] := by
  constructor
  · intro d k h
    rw [getAcceptanceCriteria, if_neg]
    · rfl
    · intro hc
      rw [h] at hc
      exact absurd hc.2 (by simp)
  · decide

/-- Claim C2 (witness for the amended theorem at the spec's example
input). -/
theorem c2_amended_witness :
    markerTest "- Users can log in\n- Users can log out\nThis is a note.\n".data = false ∧
    getAcceptanceCriteria
      (some "- Users can log in\n- Users can log out\nThis is a note.\n") none "PROJ-9"
      = .ok [] :=
  ⟨by decide, c2_amended_heuristic_fallback.1 _ "PROJ-9" (by decide)⟩

/-- Claim C3 (code behaviour at a failing input): the spec claims the
extraction entry point never raises, but a description containing a
GIVEN/WHEN/THEN paragraph makes the marker scan succeed, the GWT regex
match succeed, and the full-match-array indexing throw a `TypeError`
that propagates out of `getAcceptanceCriteria`. -/
theorem c3_never_raises_code_behavior :
    getAcceptanceCriteria
      (some "GIVEN a user WHEN they click submit THEN an error shows") none "PROJ-1"
      = .error "TypeError" := by decide

/-- Claim C4 (counterexample): the claimed invariant (criterion trimmed,
non-empty, no leading bullet/numbering marker, including explicit-list
criteria) fails twice: an explicit-list element is copied verbatim, so
the empty string becomes an empty criterion; and the heuristic pass
strips only one marker layer, so a doubly-numbered line keeps a leading
numbering marker. -/
theorem c4_counterexample :
    getAcceptanceCriteria none (some [""]) "K"
      = .ok [⟨"K-AC-1", "", .pending, none⟩] ∧
    parseAcceptanceCriteria "1. 2. 3. 4."
      = .ok [⟨"AC-1", "2. 3. 4.", .pending, none⟩] :=
  ⟨by decide, by decide⟩

/-- Claim C4 (amended): every Criterion derived from the description text
by `parseAcceptanceCriteria` has a trimmed, non-empty criterion;
explicit-list criteria are copied verbatim with no such guarantee, and
only one leading bullet/numbering marker layer is stripped. -/
theorem c4_amended_criterion_invariant :
    ∀ (text : String) (l : List AcceptanceCriteria),
      parseAcceptanceCriteria text = .ok l →
      ∀ a ∈ l, jsTrim a.criterion = a.criterion ∧ a.criterion ≠ "" :=
  fun _ _ h => parse_trimmed h

/-- Claim C4 (witness for the amended theorem at a concrete input). -/
theorem c4_amended_witness :
    parseAcceptanceCriteria "- user can log in now"
      = .ok [⟨"AC-1", "user can log in now", .pending, none⟩] ∧
    (jsTrim "user can log in now" = "user can log in now" ∧
      ("user can log in now" : String) ≠ "") :=
  ⟨by decide,
    c4_amended_criterion_invariant "- user can log in now"
      [⟨"AC-1", "user can log in now", .pending, none⟩] (by decide)
      ⟨"AC-1", "user can log in now", .pending, none⟩ (by simp)⟩

/-- Claim C5: a paragraph that starts with GIVEN (case-insensitively) but
has no full three-part GWT match contributes exactly one Criterion — the
paragraph's trimmed text verbatim, status pending, no test cases — and
introduces no error: the loop result is the rest's result with that one
criterion prepended. -/
theorem c5_incomplete_gwt_verbatim :
    ∀ (i : Nat) (p : String) (rest : List String),
      startsGivenCI p.data = true → gwtMatches p = [] →
      gwtLoop i (p :: rest)
        = (gwtLoop (i + 1) rest).map
            (fun nc => (nc.1,
              ⟨"AC-" ++ natToStr i, jsTrim p, .pending, none⟩ :: nc.2)) := by
  intro i p rest h1 h2
  rw [gwtLoop, if_pos h1, if_pos h2]
  cases hrec : gwtLoop (i + 1) rest with
  | error e => rfl
  | ok nc => rfl

/-- Claim C5 (witness at a concrete paragraph). -/
theorem c5_witness :
    startsGivenCI "GIVEN only this".data = true ∧
    gwtMatches "GIVEN only this" = [] ∧
    gwtLoop 1 ["GIVEN only this"]
      = (gwtLoop 2 []).map
          (fun nc => (nc.1,
            ⟨"AC-1", "GIVEN only this", .pending, none⟩ :: nc.2)) :=
  ⟨by decide, by decide,
    c5_incomplete_gwt_verbatim 1 "GIVEN only this" [] (by decide) (by decide)⟩

theorem explicitGo_length (key : String) : ∀ (raw : List String) (i : Nat),
    (explicitGo key i raw).length = raw.length := by
  intro raw
  induction raw with
  | nil => intro i; rfl
  | cons a rest ih =>
      intro i
      rw [explicitGo, List.length_cons, List.length_cons, ih]

theorem explicitGo_getElem (key : String) : ∀ (raw : List String) (i j : Nat)
    (a : String), raw[j]? = some a →
    (explicitGo key i raw)[j]?
      = some ⟨key ++ "-AC-" ++ natToStr (i + j), a, .pending, none⟩ := by
  intro raw
  induction raw with
  | nil => intro i j a h; simp at h
  | cons r rest ih =>
      intro i j a h
      cases j with
      | zero =>
          simp only [List.getElem?_cons_zero, Option.some.injEq] at h
          subst h
          rw [explicitGo]
          simp
      | succ j =>
          rw [List.getElem?_cons_succ] at h
          rw [explicitGo, List.getElem?_cons_succ, ih (i + 1) j a h]
          have hnum : (i + 1) + j = i + (j + 1) := by omega
          rw [hnum]

/-- Claim C6: the explicit-field extractor maps each element of the raw
list, in order, to one Criterion with id `<keyPrefix>-AC-<i+1>` (0-based
position `i`), the element verbatim as criterion, status pending and no
test cases; the empty list gives the empty result, and the call never
errors. -/
theorem c6_explicit_field_extractor (key : String) (raw : List String) :
    getAcceptanceCriteria none (some raw) key = .ok (explicitGo key 1 raw) ∧
    explicitGo key 1 [] = [] ∧
    (explicitGo key 1 raw).length = raw.length ∧
    (∀ (i : Nat) (a : String), raw[i]? = some a →
      (explicitGo key 1 raw)[i]?
        = some ⟨key ++ "-AC-" ++ natToStr (i + 1), a, .pending, none⟩) := by
  refine ⟨?_, rfl, explicitGo_length key raw 1, ?_⟩
  · rw [getAcceptanceCriteria]
    rfl
  · intro i a h
    rw [explicitGo_getElem key raw 1 i a h, Nat.add_comm 1 i]

/-- Claim C6 (witness at a concrete list and position). -/
theorem c6_witness :
    (["x", "y"] : List String)[1]? = some "y" ∧
    (explicitGo "K" 1 ["x", "y"])[1]? = some ⟨"K-AC-2", "y", .pending, none⟩ :=
  ⟨by decide, (c6_explicit_field_extractor "K" ["x", "y"]).2.2.2 1 "y" (by decide)⟩

/-- Claim C7: a heading node with present children renders as
`headingLevel` `#` characters, one space, the rendered children and two
newlines; an absent level defaults to 1; the renderer's final output is
always trimmed; and the spec's level-2 example renders to
`"## Title\n\n"`. -/
theorem c7_heading_rendering :
    (∀ (lv : Option Nat) (cs : List ADFNode),
      renderNode (ADFNode.heading lv (some cs))
        = String.mk (List.replicate (headingLevel lv) '#') ++ " "
            ++ renderNodes cs ++ "\n\n") ∧
    headingLevel none = 1 ∧
    (∀ adf : Option ADFDoc, jsTrim (extractTextFromADF adf) = extractTextFromADF adf) ∧
    renderNode (ADFNode.heading (some 2) (some [ADFNode.text "Title"])) = "## Title\n\n" := by
  refine ⟨fun lv cs => rfl, rfl, ?_, by rfl⟩
  intro adf
  cases adf with
  | none => rfl
  | some d =>
      cases d with
      | mk co =>
          cases co with
          | none => rfl
          | some c =>
              show jsTrim (jsTrim (renderNodes c)) = jsTrim (renderNodes c)
              exact jsTrim_idem _

/-- Claim C8: within one extraction call, all returned criterion ids are
pairwise distinct: text-derived ids are `AC-1, AC-2, ...` from one
strictly increasing counter, explicit-list ids are
`<key>-AC-1, <key>-AC-2, ...`, and the two families never collide
(an explicit id contains at least two dashes outside the numeral,
a text id exactly one). -/
theorem c8_id_uniqueness :
    ∀ (d : Option String) (acl : Option (List String)) (k : String)
      (l : List AcceptanceCriteria),
      getAcceptanceCriteria d acl k = .ok l → (l.map (fun c => c.id)).Nodup := by
  intro d acl k l h
  cases d with
  | none =>
      rw [getAcceptanceCriteria] at h
      simp only [Except.ok.injEq] at h
      subst h
      simp only [List.nil_append]
      exact explicitPart_ids_nodup acl k
  | some dd =>
      rw [getAcceptanceCriteria] at h
      split at h
      · split at h
        · exact absurd h (by simp)
        · next cs heq =>
            simp only [Except.ok.injEq] at h
            subst h
            rw [List.map_append]
            obtain ⟨i0, hids⟩ := parse_ids heq
            rw [hids]
            refine List.Nodup.append (nodup_text_ids _ _)
              (explicitPart_ids_nodup acl k) ?_
            intro x hx
            exact text_expl_ids_disjoint _ i0 acl k x hx
      · simp only [Except.ok.injEq] at h
        subst h
        simp only [List.nil_append]
        exact explicitPart_ids_nodup acl k

/-- Claim C8 (witness at a concrete issue with both sources). -/
theorem c8_witness :
    getAcceptanceCriteria
      (some "AC\n- the user should see errors") (some ["works fine"]) "P1"
      = .ok [⟨"AC-1", "the user should see errors", .pending, none⟩,
             ⟨"P1-AC-1", "works fine", .pending, none⟩] ∧
    (([⟨"AC-1", "the user should see errors", .pending, none⟩,
       ⟨"P1-AC-1", "works fine", .pending, none⟩] :
        List AcceptanceCriteria).map (fun c => c.id)).Nodup :=
  ⟨by decide,
    c8_id_uniqueness (some "AC\n- the user should see errors")
      (some ["works fine"]) "P1" _ (by decide)⟩

/-- Claim C9: within one `parseAcceptanceCriteria` run the text-derived
criteria come from exactly one source: if the GWT paragraph pass
produced any criteria they are returned as-is and the heuristic line
pass never runs; the heuristic pass runs exactly when the GWT pass
produced zero criteria. -/
theorem c9_exclusive_source :
    ∀ (text : String) (n : Nat) (cs : List AcceptanceCriteria),
      gwtLoop 1 (paragraphsOf text) = .ok (n, cs) →
      (cs ≠ [] → parseAcceptanceCriteria text = .ok cs) ∧
      (cs = [] → parseAcceptanceCriteria text
          = .ok (heurLoop n ((splitNl text.data).map String.mk)).2) := by
  intro text n cs h
  constructor
  · intro hne
    rw [parseAcceptanceCriteria, h]
    show (if cs = [] then Except.ok (heurLoop n ((splitNl text.data).map String.mk)).2
          else Except.ok cs) = Except.ok cs
    rw [if_neg hne]
  · intro he
    rw [parseAcceptanceCriteria, h]
    show (if cs = [] then Except.ok (heurLoop n ((splitNl text.data).map String.mk)).2
          else Except.ok cs)
        = Except.ok (heurLoop n ((splitNl text.data).map String.mk)).2
    rw [if_pos he]

/-- Claim C9 (witness: a GWT-pass criterion suppresses the heuristic). -/
theorem c9_witness :
    gwtLoop 1 (paragraphsOf "given alpha beta")
      = .ok (2, [⟨"AC-1", "given alpha beta", .pending, none⟩]) ∧
    parseAcceptanceCriteria "given alpha beta"
      = .ok [⟨"AC-1", "given alpha beta", .pending, none⟩] :=
  ⟨by decide,
    (c9_exclusive_source "given alpha beta" 2
      [⟨"AC-1", "given alpha beta", .pending, none⟩] (by decide)).1 (by decide)⟩

/-- Claim C10: the step-1 marker scan is a substring match: any
description containing `ac` case-insensitively anywhere (also inside an
unrelated word) routes the description through the text-parsing pass,
whose result (plus the explicit-list part) is the method's result. -/
theorem c10_marker_substring_scan :
    ∀ (d : String) (acl : Option (List String)) (k : String),
      containsCI d.data ['a','c'] = true →
      getAcceptanceCriteria (some d) acl k
        = (parseAcceptanceCriteria d).map (fun cs => cs ++ explicitPart acl k) := by
  intro d acl k h
  have hne : d ≠ "" := by
    intro he
    subst he
    simp [containsCI, containsCIAux, isPrefixCI] at h
  have hmk : markerTest d.data = true := by
    rw [markerTest, containsCI] at *
    rw [h]
    rfl
  rw [getAcceptanceCriteria, if_pos ⟨hne, hmk⟩]
  cases hp : parseAcceptanceCriteria d with
  | error e => rfl
  | ok cs => rfl

/-- Claim C10 (witness: `ac` inside the unrelated word `track`). -/
theorem c10_witness :
    containsCI "track the items".data ['a','c'] = true ∧
    getAcceptanceCriteria (some "track the items") none "K"
      = (parseAcceptanceCriteria "track the items").map
          (fun cs => cs ++ explicitPart none "K") :=
  ⟨by decide, c10_marker_substring_scan "track the items" none "K" (by decide)⟩
